import Mathlib

set_option maxRecDepth 4000

/-
Verification of the configuration store (src/core/color_config.py) and the
git-repository scan and branch lookup (src/modules/git_manager/git_manager.py).

The JSON documents handled by ColorConfig are modelled as association lists of
string keys, mirroring Python dict semantics with insertion order: updating an
existing key keeps its position, a new key is appended at the end.  The
serialize/parse pair (json.dump with indent=4, json.load) round-trips JSON
values exactly, so the file on disk is modelled at the value level: a file is
either missing, present-but-unparseable, or stores a JSON object.
-/

/-- JSON values, as stored in the color-configuration file. -/
inductive JValue where
  | jstr (s : String) : JValue
  | jbool (b : Bool) : JValue
  | jnum (n : Int) : JValue
  | jobj (fields : List (String × JValue)) : JValue
  | jarr (items : List JValue) : JValue

/-- A JSON object: an insertion-ordered association list, as a Python dict. -/
abbrev JObj := List (String × JValue)

/-- Python dict lookup `d.get(key)`: first (unique, in a real dict) match. -/
def alookup {α : Type} : List (String × α) → String → Option α
  | [], _ => none
  | (k, v) :: rest, key => if k = key then some v else alookup rest key

/-- Python dict store `d[key] = v`: replace in place if the key is present,
append at the end otherwise. -/
def aset {α : Type} : List (String × α) → String → α → List (String × α)
  | [], key, v => [(key, v)]
  | (k, w) :: rest, key, v =>
      if k = key then (key, v) :: rest else (k, w) :: aset rest key v

/-- Whether the keys of an association list are pairwise distinct (always true
for a Python dict). -/
def nodupKeys {α : Type} : List (String × α) → Bool
  | [] => true
  | (k, _) :: rest => !(rest.any fun p => p.1 == k) && nodupKeys rest

/-- The content of the configuration file at `self.config_path`:
absent, present but failing to parse (json.JSONDecodeError / IOError),
or a stored JSON object. -/
inductive FileContent where
  | missing : FileContent
  | corrupt : FileContent
  | stored (doc : JObj) : FileContent

/-- The state of a ColorConfig instance together with its config file:
`self.config`, `self.module_colors`, and the file at `self.config_path`.
In the source `module_colors` is annotated `Dict[str, Dict[str, str]]`; it is
kept as a JSON object here, and `save_config` re-syncs `config["modules"]`
from it exactly as the source does before every write. -/
structure ColorConfigState where
  config : JObj
  module_colors : JObj
  file : FileContent

/-- The default document built by `ColorConfig._create_default_config`. -/
def default_config : JObj :=
  [("version", JValue.jstr "1.0"),
   ("description", JValue.jstr "Color configuration for application modules"),
   ("modules", JValue.jobj []),
   ("window", JValue.jobj
      [("bg_color", JValue.jstr "#00c8f9"), ("fg_color", JValue.jstr "#ffffff")]),
   ("settings", JValue.jobj
      [("auto_apply", JValue.jbool true), ("preview_changes", JValue.jbool true)])]

/-- The default window color pair used by `reset_to_defaults`,
`get_window_colors` and `set_window_color`. -/
def default_window : JValue :=
  JValue.jobj [("bg_color", JValue.jstr "#00c8f9"), ("fg_color", JValue.jstr "#ffffff")]

/-- `ColorConfig.save_config` with `path=None`: sets
`self.config["modules"] = self.module_colors`, then writes the whole document
to the config file (os.makedirs and the 4-space indentation are I/O details
with no observable effect on the document). -/
def save_config (st : ColorConfigState) : ColorConfigState :=
  let cfg := aset st.config "modules" (JValue.jobj st.module_colors)
  { config := cfg, module_colors := st.module_colors, file := FileContent.stored cfg }

/-- `ColorConfig._create_default_config`: installs the default document,
empties `module_colors`, and saves. -/
def create_default_config (f : FileContent) : ColorConfigState :=
  save_config { config := default_config, module_colors := [], file := f }

/-- `ColorConfig._load_config`: reads the file; on a parse/IO error (logged in
the source) or a missing file, falls back to `_create_default_config`.
A stored document whose "modules" entry is not a JSON object would violate the
source's `Dict[str, Dict[str, str]]` annotation (the source would store the
raw value and crash on first use); the model takes `[]` there. -/
def load_config (f : FileContent) : ColorConfigState :=
  match f with
  | FileContent.stored doc =>
      { config := doc,
        module_colors :=
          match alookup doc "modules" with
          | some (JValue.jobj ms) => ms
          | _ => [],
        file := FileContent.stored doc }
  | FileContent.missing => create_default_config FileContent.missing
  | FileContent.corrupt => create_default_config FileContent.corrupt

/-- `ColorConfig.get_module_color`: `self.module_colors.get(module_name, {})`
then `.get(color_type)`.  A non-object entry would make the source raise
AttributeError; the model returns `none` there. -/
def get_module_color (st : ColorConfigState) (module_name color_type : String) :
    Option JValue :=
  match alookup st.module_colors module_name with
  | some (JValue.jobj entry) => alookup entry color_type
  | some _ => none
  | none => none

/-- Whether every entry of a modules map is a JSON object, as the source's
type annotation `Dict[str, Dict[str, str]]` requires. -/
def modulesTyped (mc : JObj) : Bool :=
  mc.all fun p => match p.2 with
    | JValue.jobj _ => true
    | _ => false

/-- `ColorConfig.set_module_color`: inserts an empty entry when the module is
absent, sets the one channel, and saves when `auto_save`.  On an existing
non-object entry the source would raise TypeError; the model starts from `[]`
there (such states violate `modulesTyped`). -/
def set_module_color (st : ColorConfigState)
    (module_name color_type color_value : String) (auto_save : Bool) :
    ColorConfigState :=
  let mc0 :=
    match alookup st.module_colors module_name with
    | none => aset st.module_colors module_name (JValue.jobj [])
    | some _ => st.module_colors
  let entry :=
    match alookup mc0 module_name with
    | some (JValue.jobj e) => e
    | _ => []
  let mc1 := aset mc0 module_name
      (JValue.jobj (aset entry color_type (JValue.jstr color_value)))
  let st1 := { st with module_colors := mc1 }
  if auto_save then save_config st1 else st1

/-- The built-in `module_themes` table of `ColorConfig.register_module`. -/
def module_themes : List (String × List (String × String)) :=
  [("Dashboard", [("bg_color", "#ffffff"), ("fg_color", "#2c3e50")]),
   ("System Status", [("bg_color", "#1a1a2e"), ("fg_color", "#00d4ff")]),
   ("Git Manager", [("bg_color", "#0d1117"), ("fg_color", "#58a6ff")]),
   ("Log", [("bg_color", "#000000"), ("fg_color", "#00ff00")])]

/-- The local `theme_colors = module_themes.get(module_name, {})` of
`register_module`. -/
def theme_colors_for (module_name : String) : List (String × String) :=
  match alookup module_themes module_name with
  | some t => t
  | none => []

/-- The local `theme_bg = theme_colors.get("bg_color", default_bg)` of
`register_module`. -/
def theme_bg_for (module_name default_bg : String) : String :=
  match alookup (theme_colors_for module_name) "bg_color" with
  | some c => c
  | none => default_bg

/-- The local `theme_fg = theme_colors.get("fg_color", default_fg)` of
`register_module`. -/
def theme_fg_for (module_name default_fg : String) : String :=
  match alookup (theme_colors_for module_name) "fg_color" with
  | some c => c
  | none => default_fg

/-- `ColorConfig.register_module`: computes theme colors (falling back to the
caller-supplied defaults), then inserts the pair and saves only when the
module has no entry yet. -/
def register_module (st : ColorConfigState)
    (module_name default_bg default_fg : String) : ColorConfigState :=
  match alookup st.module_colors module_name with
  | some _ => st
  | none =>
      let pair := JValue.jobj
        [("bg_color", JValue.jstr (theme_bg_for module_name default_bg)),
         ("fg_color", JValue.jstr (theme_fg_for module_name default_fg))]
      save_config { st with module_colors := aset st.module_colors module_name pair }

/-- `ColorConfig.reset_to_defaults`: empties `module_colors`, sets
`config["modules"] = {}` and `config["window"]` to the default pair, saves. -/
def reset_to_defaults (st : ColorConfigState) : ColorConfigState :=
  save_config
    { config := aset (aset st.config "modules" (JValue.jobj [])) "window" default_window,
      module_colors := [],
      file := st.file }

/-
Model of `GitManagerModule._find_all_git_repositories`
(src/modules/git_manager/git_manager.py).

A directory tree node is either a plain file or a directory with a listing
(os.listdir order).  Paths are lists of name components relative to the
scanned root.  The source's recursion

    def search_directory(path, depth=0):
        if depth > 3: return
        ... for each non-dot entry that is a directory:
               record it when it holds a `.git` directory and is unseen,
               search_directory(item_path, depth + 1)

is written here with an explicit fuel argument, fuel = 4 - depth: the entry
guard `depth > 3` becomes fuel 0, and the top-level call
`search_directory(root_path)` (depth 0) becomes fuel 4.  The PermissionError
handler only skips unreadable real directories and has no counterpart in the
model.  The source records dicts {path, name, branch}; name is the last path
component and branch comes from the separately modelled `_get_branch_name`,
so the model records just the path.
-/

/-- A file-system node: a plain file, or a directory with its listing. -/
inductive FsEntry where
  | file : FsEntry
  | dir (entries : List (String × FsEntry)) : FsEntry

/-- The listing of a node (empty for a plain file). -/
def entriesOf : FsEntry → List (String × FsEntry)
  | FsEntry.file => []
  | FsEntry.dir es => es

/-- Models Python `item.startswith(".")`: the first character is a dot. -/
def dotted (s : String) : Bool :=
  match s.data with
  | [] => false
  | c :: _ => c == '.'

/-- Models `os.path.isdir(os.path.join(item_path, ".git"))`: the listing has
a `.git` entry and that entry is a directory. -/
def hasGitDir (es : List (String × FsEntry)) : Bool :=
  match alookup es ".git" with
  | some (FsEntry.dir _) => true
  | _ => false

/-- The mutable state of the scan: `found_paths` and the recorded repository
paths, in discovery order. -/
abbrev ScanState := List (List String) × List (List String)

/-- One level of the scan loop: iterates a directory listing, skipping
dot-prefixed names and plain files; for each subdirectory it records the
repository (when `.git` is present and the path is unseen) and then descends
via `dive`, exactly as the loop body of `search_directory`. -/
def scanStep (dive : List String → List (String × FsEntry) → ScanState → ScanState) :
    List String → List (String × FsEntry) → ScanState → ScanState
  | _, [], st => st
  | path, (name, e) :: rest, st =>
    if dotted name then scanStep dive path rest st
    else
      match e with
      | FsEntry.file => scanStep dive path rest st
      | FsEntry.dir sub =>
          let item_path := path ++ [name]
          let st1 :=
            if hasGitDir sub = true ∧ item_path ∉ st.1 then
              (item_path :: st.1, st.2 ++ [item_path])
            else st
          scanStep dive path rest (dive item_path sub st1)

/-- `search_directory` with fuel = 4 - depth: fuel 0 is the `depth > 3`
entry guard, and the descent passes fuel n to mirror `depth + 1`. -/
def search_directory : Nat → List String → List (String × FsEntry) → ScanState → ScanState
  | 0, _, _, st => st
  | n + 1, path, es, st => scanStep (search_directory n) path es st

/-- `GitManagerModule._find_all_git_repositories`: the top-level call
`search_directory(root_path)` at depth 0, i.e. fuel 4, starting from empty
`found_paths` and `repos`. -/
def find_all_git_repositories (root : FsEntry) : List (List String) :=
  (search_directory 4 [] (entriesOf root) ([], [])).2

/-- Directory listings have pairwise-distinct names (as os.listdir guarantees)
down to the given depth. -/
def wfDepth : Nat → List (String × FsEntry) → Bool
  | 0, _ => true
  | n + 1, es => nodupKeys es && es.all fun p => wfDepth n (entriesOf p.2)

/-- The specification-side repository predicate: `repoSuffix s es` holds when
following the components of `s` from a listing `es` passes only through
non-dot-named directories and ends at a directory whose listing contains a
`.git` directory. -/
def repoSuffix : List String → List (String × FsEntry) → Bool
  | [], _ => false
  | [name], es =>
    !dotted name &&
      match alookup es name with
      | some (FsEntry.dir sub) => hasGitDir sub
      | _ => false
  | name :: s, es =>
    !dotted name &&
      match alookup es name with
      | some (FsEntry.dir sub) => repoSuffix s sub
      | _ => false

/-- `Under p q`: the path `q` lies at or below the path `p`. -/
def Under (p q : List String) : Prop := ∃ t, q = p ++ t

/-- Invariant of the scan: `found_paths` holds nothing at or below any entry
of the listing currently being scanned. -/
def FoundAway (path : List String) (es : List (String × FsEntry))
    (found : List (List String)) : Prop :=
  ∀ p ∈ es, ∀ q ∈ found, ¬ Under (path ++ [p.1]) q

/-
Model of `GitManagerModule._get_branch_name`.  Each of the two subprocess
invocations (`git rev-parse --abbrev-ref HEAD`, then `git rev-parse --short
HEAD`) either raises (subprocess.TimeoutExpired, FileNotFoundError, or any
other exception — all caught by the same handler) or completes with an exit
code and captured stdout.
-/

/-- Outcome of one `subprocess.run` invocation. -/
inductive CmdOutcome where
  | raised : CmdOutcome
  | completed (exit_code : Int) (out : String) : CmdOutcome

/-- `GitManagerModule._get_branch_name`, as a function of the outcomes of the
two git invocations: the branch name on success, `"detached-" + short hash`
when the symbolic lookup fails but the hash lookup succeeds, and the fallback
label "Unknown" in every other case. -/
def get_branch_name (symbolic short_head : CmdOutcome) : String :=
  match symbolic with
  | CmdOutcome.raised => "Unknown"
  | CmdOutcome.completed rc out =>
      if rc = 0 then out.trim
      else
        match short_head with
        | CmdOutcome.raised => "Unknown"
        | CmdOutcome.completed rc2 out2 =>
            if rc2 = 0 then "detached-" ++ out2.trim else "Unknown"

/-- A fixture store used by witnesses: a freshly defaulted configuration. -/
def sample_store : ColorConfigState :=
  { config := default_config, module_colors := [], file := FileContent.missing }

/-- A fixture tree with a repository at depth 4 below the root and nothing
shallower: root/a/b/c/d is a git repository. -/
def deep_tree : FsEntry :=
  FsEntry.dir [("a", FsEntry.dir [("b", FsEntry.dir [("c", FsEntry.dir
    [("d", FsEntry.dir [(".git", FsEntry.dir [])])])])])]

/-- A fixture tree with repositories at depths 1 and 2, a non-repository
directory, and a dot-prefixed repository that must be skipped. -/
def sample_tree : FsEntry :=
  FsEntry.dir
    [("r1", FsEntry.dir [(".git", FsEntry.dir []),
                         ("inner", FsEntry.dir [(".git", FsEntry.dir [])])]),
     ("plain", FsEntry.dir []),
     (".hidden", FsEntry.dir [(".git", FsEntry.dir [])])]

theorem alookup_aset_self {α : Type} (d : List (String × α)) (k : String) (v : α) :
    alookup (aset d k v) k = some v := by
  induction d with
  | nil => simp [aset, alookup]
  | cons p rest ih =>
    obtain ⟨k', w⟩ := p
    by_cases h : k' = k
    · simp [aset, h, alookup]
    · simp [aset, h, alookup, ih]

theorem alookup_aset_ne {α : Type} (d : List (String × α)) (k k' : String) (v : α)
    (h : k' ≠ k) : alookup (aset d k v) k' = alookup d k' := by
  have h' : k ≠ k' := Ne.symm h
  induction d with
  | nil => simp [aset, alookup, h']
  | cons p rest ih =>
    obtain ⟨a, w⟩ := p
    by_cases ha : a = k
    · simp [aset, ha, alookup, h']
    · by_cases hb : a = k'
      · simp [aset, ha, alookup, hb, h, h']
      · simp [aset, ha, alookup, hb, ih]

theorem any_key_aset {α : Type} (d : List (String × α)) (k : String) (v : α)
    (k' : String) :
    ((aset d k v).any fun p => p.1 == k') = ((d.any fun p => p.1 == k') || (k == k')) := by
  induction d with
  | nil => simp only [aset, List.any_cons, List.any_nil, Bool.or_false, Bool.false_or]
  | cons p rest ih =>
    obtain ⟨a, w⟩ := p
    by_cases ha : a = k
    · subst ha
      simp only [aset, if_pos rfl, List.any_cons]
      cases hk : (a == k') <;>
        cases hr : (rest.any fun p => p.1 == k') <;> simp [hk, hr]
    · simp only [aset, if_neg ha, List.any_cons, ih, Bool.or_assoc]

theorem nodupKeys_aset {α : Type} (d : List (String × α)) (k : String) (v : α)
    (h : nodupKeys d = true) : nodupKeys (aset d k v) = true := by
  induction d with
  | nil => simp [aset, nodupKeys]
  | cons p rest ih =>
    obtain ⟨a, w⟩ := p
    simp only [nodupKeys, Bool.and_eq_true, Bool.not_eq_true'] at h
    by_cases ha : a = k
    · subst ha
      simp only [aset, if_pos rfl, nodupKeys, Bool.and_eq_true, Bool.not_eq_true']
      exact ⟨h.1, h.2⟩
    · have hka : (k == a) = false := by
        simp only [beq_eq_false_iff_ne, ne_eq]
        exact fun hh => ha hh.symm
      simp only [aset, if_neg ha, nodupKeys, Bool.and_eq_true, Bool.not_eq_true']
      refine ⟨?_, ih h.2⟩
      rw [any_key_aset, h.1, hka]
      rfl

/-- C1: for the fixed config path, if the file is absent or fails to parse,
`_load_config` synthesizes the documented default document (version "1.0",
empty modules map, window pair bg #00c8f9 / fg #ffffff, settings
auto_apply=true and preview_changes=true) and persists it to disk. -/
theorem load_config_missing_or_corrupt_defaults (f : FileContent)
    (h : f = FileContent.missing ∨ f = FileContent.corrupt) :
    load_config f =
      { config := default_config, module_colors := [],
        file := FileContent.stored default_config } := by
  rcases h with h | h <;> subst h <;> rfl

/-- Witness for C1 at a concretely missing file. -/
theorem load_config_missing_or_corrupt_defaults_case :
    load_config FileContent.missing =
      { config := default_config, module_colors := [],
        file := FileContent.stored default_config } :=
  load_config_missing_or_corrupt_defaults FileContent.missing (Or.inl rfl)

theorem register_module_present (st : ColorConfigState) (name bg fg : String)
    (e : JValue) (h : alookup st.module_colors name = some e) :
    register_module st name bg fg = st := by
  simp only [register_module, h]

theorem register_module_absent (st : ColorConfigState) (name bg fg : String)
    (h : alookup st.module_colors name = none) :
    register_module st name bg fg =
      save_config
        { st with
          module_colors :=
            aset st.module_colors name
              (JValue.jobj
                [("bg_color", JValue.jstr (theme_bg_for name bg)),
                 ("fg_color", JValue.jstr (theme_fg_for name fg))]) } := by
  simp only [register_module, h]

/-- C3: registering the same module a second time, with any other default
colors, is a no-op on the whole state (first registration wins), and the
modules map keeps at most one entry per name. -/
theorem register_module_second_noop (st : ColorConfigState)
    (name bg1 fg1 bg2 fg2 : String)
    (h : nodupKeys st.module_colors = true) :
    register_module (register_module st name bg1 fg1) name bg2 fg2 =
        register_module st name bg1 fg1 ∧
      nodupKeys (register_module st name bg1 fg1).module_colors = true := by
  cases hm : alookup st.module_colors name with
  | some entry =>
    have h1 := register_module_present st name bg1 fg1 entry hm
    rw [h1]
    exact ⟨register_module_present st name bg2 fg2 entry hm, h⟩
  | none =>
    have h1 := register_module_absent st name bg1 fg1 hm
    have hmem : alookup (register_module st name bg1 fg1).module_colors name =
        some (JValue.jobj
          [("bg_color", JValue.jstr (theme_bg_for name bg1)),
           ("fg_color", JValue.jstr (theme_fg_for name fg1))]) := by
      rw [h1]
      simp only [save_config]
      exact alookup_aset_self _ _ _
    refine ⟨register_module_present _ name bg2 fg2 _ hmem, ?_⟩
    rw [h1]
    simp only [save_config]
    exact nodupKeys_aset _ _ _ h

/-- Witness for C3 on a fresh default store. -/
theorem register_module_second_noop_case :
    register_module (register_module sample_store "Foo" "#111111" "#222222")
        "Foo" "#333333" "#444444" =
      register_module sample_store "Foo" "#111111" "#222222" ∧
    nodupKeys (register_module sample_store "Foo" "#111111" "#222222").module_colors
      = true :=
  register_module_second_noop sample_store "Foo" "#111111" "#222222" "#333333" "#444444" rfl

/-- C4: for every state whose module entries are well-typed objects, every
module name, channel, and color value, `set_module_color` followed by
`get_module_color` on the same name and channel returns exactly the value
just set, with or without auto-save. -/
theorem set_then_get_module_color (st : ColorConfigState)
    (name ch v : String) (auto_save : Bool)
    (_h : modulesTyped st.module_colors = true) :
    get_module_color (set_module_color st name ch v auto_save) name ch =
      some (JValue.jstr v) := by
  have hmc : (set_module_color st name ch v auto_save).module_colors =
      (let mc0 :=
        match alookup st.module_colors name with
        | none => aset st.module_colors name (JValue.jobj [])
        | some _ => st.module_colors
      let entry :=
        match alookup mc0 name with
        | some (JValue.jobj e) => e
        | _ => []
      aset mc0 name (JValue.jobj (aset entry ch (JValue.jstr v)))) := by
    simp only [set_module_color]
    cases auto_save <;> simp [save_config]
  simp only [get_module_color, hmc, alookup_aset_self, alookup_aset_self]

/-- Witness for C4 on a fresh default store. -/
theorem set_then_get_module_color_case :
    get_module_color (set_module_color sample_store "Git Manager" "bg_color" "#123456" true)
        "Git Manager" "bg_color" = some (JValue.jstr "#123456") :=
  set_then_get_module_color sample_store "Git Manager" "bg_color" "#123456" true rfl

/-- C5: from every store state, `reset_to_defaults` leaves the modules map
empty (both the `module_colors` field and the document's "modules" entry),
sets the window colors to the exact default pair bg #00c8f9 / fg #ffffff,
and persists the resulting document. -/
theorem reset_to_defaults_spec (st : ColorConfigState) :
    (reset_to_defaults st).module_colors = [] ∧
    alookup (reset_to_defaults st).config "modules" = some (JValue.jobj []) ∧
    alookup (reset_to_defaults st).config "window" = some default_window ∧
    (reset_to_defaults st).file = FileContent.stored (reset_to_defaults st).config := by
  refine ⟨rfl, ?_, ?_, rfl⟩
  · simp only [reset_to_defaults, save_config, alookup_aset_self]
  · have hwm : ("window" : String) ≠ "modules" := by decide
    simp only [reset_to_defaults, save_config]
    rw [alookup_aset_ne _ _ _ _ hwm, alookup_aset_self]

/-- C7: saving the in-memory document and loading it back yields exactly the
state that was saved: the loaded document equals the saved one (the model
keeps Python dict key order, so the equality is even order-exact). -/
theorem save_then_load_roundtrip (st : ColorConfigState) :
    load_config (save_config st).file = save_config st := by
  simp only [save_config, load_config, alookup_aset_self]

/-- C8: on a not-yet-registered name, `register_module` installs the built-in
theme pair for each of the four known names regardless of the caller-supplied
defaults, and the caller-supplied defaults for any other name. -/
theorem register_module_theme_overrides (st : ColorConfigState)
    (name bg fg : String)
    (h : alookup st.module_colors name = none) :
    (name = "Dashboard" →
      get_module_color (register_module st name bg fg) name "bg_color" =
          some (JValue.jstr "#ffffff") ∧
        get_module_color (register_module st name bg fg) name "fg_color" =
          some (JValue.jstr "#2c3e50")) ∧
    (name = "System Status" →
      get_module_color (register_module st name bg fg) name "bg_color" =
          some (JValue.jstr "#1a1a2e") ∧
        get_module_color (register_module st name bg fg) name "fg_color" =
          some (JValue.jstr "#00d4ff")) ∧
    (name = "Git Manager" →
      get_module_color (register_module st name bg fg) name "bg_color" =
          some (JValue.jstr "#0d1117") ∧
        get_module_color (register_module st name bg fg) name "fg_color" =
          some (JValue.jstr "#58a6ff")) ∧
    (name = "Log" →
      get_module_color (register_module st name bg fg) name "bg_color" =
          some (JValue.jstr "#000000") ∧
        get_module_color (register_module st name bg fg) name "fg_color" =
          some (JValue.jstr "#00ff00")) ∧
    (name ≠ "Dashboard" → name ≠ "System Status" → name ≠ "Git Manager" →
      name ≠ "Log" →
      get_module_color (register_module st name bg fg) name "bg_color" =
          some (JValue.jstr bg) ∧
        get_module_color (register_module st name bg fg) name "fg_color" =
          some (JValue.jstr fg)) := by
  refine ⟨?_, ?_, ?_, ?_, ?_⟩
  · intro hn; subst hn
    rw [register_module_absent st _ bg fg h]
    simp only [save_config, get_module_color, alookup_aset_self]
    constructor <;> rfl
  · intro hn; subst hn
    rw [register_module_absent st _ bg fg h]
    simp only [save_config, get_module_color, alookup_aset_self]
    constructor <;> rfl
  · intro hn; subst hn
    rw [register_module_absent st _ bg fg h]
    simp only [save_config, get_module_color, alookup_aset_self]
    constructor <;> rfl
  · intro hn; subst hn
    rw [register_module_absent st _ bg fg h]
    simp only [save_config, get_module_color, alookup_aset_self]
    constructor <;> rfl
  · intro h1 h2 h3 h4
    have hth : theme_colors_for name = [] := by
      simp only [theme_colors_for, module_themes, alookup]
      rw [if_neg fun hh => h1 hh.symm, if_neg fun hh => h2 hh.symm,
        if_neg fun hh => h3 hh.symm, if_neg fun hh => h4 hh.symm]
    have hbg : theme_bg_for name bg = bg := by
      simp only [theme_bg_for, hth, alookup]
    have hfg : theme_fg_for name fg = fg := by
      simp only [theme_fg_for, hth, alookup]
    rw [register_module_absent st name bg fg h]
    simp only [save_config, get_module_color, alookup_aset_self, hbg, hfg]
    constructor <;> rfl

/-- Witness for C8: registering "Dashboard" on a fresh store installs the
theme background, not the caller-supplied one. -/
theorem register_module_theme_overrides_case :
    get_module_color (register_module sample_store "Dashboard" "#123456" "#654321")
        "Dashboard" "bg_color" = some (JValue.jstr "#ffffff") :=
  ((register_module_theme_overrides sample_store "Dashboard" "#123456" "#654321"
      rfl).1 rfl).1

/-- C9: `reset_to_defaults` changes nothing in the document outside the
"modules" and "window" entries: every other key, in particular "settings",
"version" and "description", keeps its value. -/
theorem reset_to_defaults_frame (st : ColorConfigState) (k : String)
    (h1 : k ≠ "modules") (h2 : k ≠ "window") :
    alookup (reset_to_defaults st).config k = alookup st.config k := by
  simp only [reset_to_defaults, save_config]
  rw [alookup_aset_ne _ _ _ _ h1, alookup_aset_ne _ _ _ _ h2,
    alookup_aset_ne _ _ _ _ h1]

/-- Witness for C9 at the "settings" key of a fresh default store. -/
theorem reset_to_defaults_frame_case :
    alookup (reset_to_defaults sample_store).config "settings" =
      alookup sample_store.config "settings" :=
  reset_to_defaults_frame sample_store "settings" (by decide) (by decide)

theorem under_of_under_snoc {p : List String} {a : String} {q : List String}
    (h : Under (p ++ [a]) q) : Under p q := by
  obtain ⟨t, ht⟩ := h
  refine ⟨a :: t, ?_⟩
  rw [ht, List.append_assoc]
  rfl

theorem not_under_snoc_self (p : List String) (a : String) : ¬ Under (p ++ [a]) p := by
  rintro ⟨t, ht⟩
  have hlen := congrArg List.length ht
  simp [List.length_append] at hlen

theorem under_snoc_cons {path : List String} {a b : String} {t : List String}
    (h : Under (path ++ [a]) (path ++ b :: t)) : a = b := by
  obtain ⟨u, hu⟩ := h
  rw [List.append_assoc] at hu
  have h2 : b :: t = [a] ++ u := List.append_cancel_left hu
  have h3 : b = a ∧ t = u := by
    rw [List.singleton_append] at h2
    exact List.cons.inj h2
  exact h3.1.symm

theorem alookup_eq_none {α : Type} (l : List (String × α)) (k : String)
    (h : (l.any fun p => p.1 == k) = false) : alookup l k = none := by
  induction l with
  | nil => rfl
  | cons p rest ih =>
    obtain ⟨a, w⟩ := p
    simp only [List.any_cons, Bool.or_eq_false_iff] at h
    have ha : a ≠ k := by
      have := h.1
      simp only [beq_eq_false_iff_ne, ne_eq] at this
      exact this
    simp [alookup, ha, ih h.2]

theorem key_ne_of_any_false {α : Type} {l : List (String × α)} {k : String}
    {p : String × α} (hp : p ∈ l)
    (h : (l.any fun p => p.1 == k) = false) : p.1 ≠ k := by
  rw [List.any_eq_false] at h
  have := h p hp
  simpa using this

theorem wfDepth_cons {n : Nat} {name : String} {e : FsEntry}
    {rest : List (String × FsEntry)}
    (h : wfDepth (n + 1) ((name, e) :: rest) = true) :
    ((rest.any fun p => p.1 == name) = false) ∧
      wfDepth n (entriesOf e) = true ∧ wfDepth (n + 1) rest = true := by
  simp only [wfDepth, nodupKeys, List.all_cons, Bool.and_eq_true,
    Bool.not_eq_true'] at h
  exact ⟨h.1.1, h.2.1, by
    simp only [wfDepth, Bool.and_eq_true]
    exact ⟨h.1.2, h.2.2⟩⟩

theorem repoSuffix_nil_entries : ∀ s : List String,
    repoSuffix s ([] : List (String × FsEntry)) = false
  | [] => rfl
  | [_] => by simp [repoSuffix, alookup]
  | _ :: _ :: _ => by simp [repoSuffix, alookup]

theorem repoSuffix_ne_nil {s : List String} {es : List (String × FsEntry)}
    (h : repoSuffix s es = true) : s ≠ [] := by
  intro hs
  subst hs
  simp [repoSuffix] at h

theorem repoSuffix_cons_skip {name : String} {e : FsEntry}
    {rest : List (String × FsEntry)}
    (hnd : (rest.any fun p => p.1 == name) = false)
    (hsk : dotted name = true ∨ e = FsEntry.file) :
    ∀ s, repoSuffix s ((name, e) :: rest) = repoSuffix s rest := by
  have hl : alookup rest name = none := alookup_eq_none rest name hnd
  intro s
  cases s with
  | nil => rfl
  | cons m s2 =>
    cases s2 with
    | nil =>
      by_cases hm : name = m
      · subst hm
        rcases hsk with hd | hf
        · simp [repoSuffix, alookup, hl, hd]
        · subst hf
          simp [repoSuffix, alookup, hl]
      · simp [repoSuffix, alookup, hm]
    | cons b s3 =>
      by_cases hm : name = m
      · subst hm
        rcases hsk with hd | hf
        · simp [repoSuffix, alookup, hl, hd]
        · subst hf
          simp [repoSuffix, alookup, hl]
      · simp [repoSuffix, alookup, hm]

theorem repoSuffix_cons_dir {name : String} {sub rest : List (String × FsEntry)}
    (hnd : (rest.any fun p => p.1 == name) = false)
    (hdot : dotted name = false) (s : List String) :
    repoSuffix s ((name, FsEntry.dir sub) :: rest) = true ↔
      (s = [name] ∧ hasGitDir sub = true) ∨
      (∃ s2, s = name :: s2 ∧ s2 ≠ [] ∧ repoSuffix s2 sub = true) ∨
      repoSuffix s rest = true := by
  have hl : alookup rest name = none := alookup_eq_none rest name hnd
  cases s with
  | nil => simp [repoSuffix]
  | cons m s2 =>
    cases s2 with
    | nil =>
      by_cases hm : name = m
      · subst hm
        simp [repoSuffix, alookup, hl, hdot]
      · have hm2 : m ≠ name := fun hh => hm hh.symm
        simp [repoSuffix, alookup, hm, hm2]
    | cons b s3 =>
      by_cases hm : name = m
      · subst hm
        simp [repoSuffix, alookup, hl, hdot]
      · have hm2 : m ≠ name := fun hh => hm hh.symm
        simp [repoSuffix, alookup, hm, hm2]

theorem scanStep_found_sub
    (dive : List String → List (String × FsEntry) → ScanState → ScanState)
    (hdf : ∀ ip sub st, ∀ q ∈ (dive ip sub st).1,
      q ∈ st.1 ∨ ∃ t, t ≠ [] ∧ q = ip ++ t) :
    ∀ (es : List (String × FsEntry)) (path : List String) (st : ScanState),
      ∀ q ∈ (scanStep dive path es st).1,
        q ∈ st.1 ∨ ∃ t, t ≠ [] ∧ q = path ++ t := by
  intro es
  induction es with
  | nil =>
    intro path st q hq
    exact Or.inl (by simpa [scanStep] using hq)
  | cons p rest ih =>
    obtain ⟨name, e⟩ := p
    intro path st q hq
    by_cases hd : dotted name = true
    · have hstep : scanStep dive path ((name, e) :: rest) st =
          scanStep dive path rest st := by
        simp [scanStep, hd]
      rw [hstep] at hq
      exact ih path st q hq
    · have hd' : dotted name = false := by
        cases hdd : dotted name
        · rfl
        · exact absurd hdd hd
      cases e with
      | file =>
        have hstep : scanStep dive path ((name, FsEntry.file) :: rest) st =
            scanStep dive path rest st := by
          simp [scanStep, hd']
        rw [hstep] at hq
        exact ih path st q hq
      | dir sub =>
        have hstep : scanStep dive path ((name, FsEntry.dir sub) :: rest) st =
            scanStep dive path rest
              (dive (path ++ [name]) sub
                (if hasGitDir sub = true ∧ (path ++ [name]) ∉ st.1 then
                  ((path ++ [name]) :: st.1, st.2 ++ [path ++ [name]])
                else st)) := by
          simp [scanStep, hd']
        rw [hstep] at hq
        rcases ih path _ q hq with hin | ⟨t, htne, hqe⟩
        · rcases hdf _ _ _ q hin with hin1 | ⟨t, htne, hqe⟩
          · by_cases hc : hasGitDir sub = true ∧ (path ++ [name]) ∉ st.1
            · rw [if_pos hc] at hin1
              rcases List.mem_cons.mp hin1 with hqp | hin2
              · exact Or.inr ⟨[name], by simp, hqp⟩
              · exact Or.inl hin2
            · rw [if_neg hc] at hin1
              exact Or.inl hin1
          · refine Or.inr ⟨name :: t, by simp, ?_⟩
            rw [hqe, List.append_assoc]
            rfl
        · exact Or.inr ⟨t, htne, hqe⟩

theorem search_directory_found_sub :
    ∀ (n : Nat) (path : List String) (es : List (String × FsEntry)) (st : ScanState),
      ∀ q ∈ (search_directory n path es st).1,
        q ∈ st.1 ∨ ∃ t, t ≠ [] ∧ q = path ++ t := by
  intro n
  induction n with
  | zero =>
    intro path es st q hq
    exact Or.inl hq
  | succ n ih =>
    intro path es st q hq
    exact scanStep_found_sub (search_directory n)
      (fun ip sub st2 => ih ip sub st2) es path st q hq

theorem scanStep_repos_sub
    (dive : List String → List (String × FsEntry) → ScanState → ScanState)
    (hdr : ∀ ip sub st, ∀ q ∈ (dive ip sub st).2,
      q ∈ st.2 ∨ ∃ t, t ≠ [] ∧ q = ip ++ t ∧ ∀ c ∈ t, dotted c = false) :
    ∀ (es : List (String × FsEntry)) (path : List String) (st : ScanState),
      ∀ q ∈ (scanStep dive path es st).2,
        q ∈ st.2 ∨ ∃ t, t ≠ [] ∧ q = path ++ t ∧ ∀ c ∈ t, dotted c = false := by
  intro es
  induction es with
  | nil =>
    intro path st q hq
    exact Or.inl (by simpa [scanStep] using hq)
  | cons p rest ih =>
    obtain ⟨name, e⟩ := p
    intro path st q hq
    by_cases hd : dotted name = true
    · have hstep : scanStep dive path ((name, e) :: rest) st =
          scanStep dive path rest st := by
        simp [scanStep, hd]
      rw [hstep] at hq
      exact ih path st q hq
    · have hd' : dotted name = false := by
        cases hdd : dotted name
        · rfl
        · exact absurd hdd hd
      cases e with
      | file =>
        have hstep : scanStep dive path ((name, FsEntry.file) :: rest) st =
            scanStep dive path rest st := by
          simp [scanStep, hd']
        rw [hstep] at hq
        exact ih path st q hq
      | dir sub =>
        have hstep : scanStep dive path ((name, FsEntry.dir sub) :: rest) st =
            scanStep dive path rest
              (dive (path ++ [name]) sub
                (if hasGitDir sub = true ∧ (path ++ [name]) ∉ st.1 then
                  ((path ++ [name]) :: st.1, st.2 ++ [path ++ [name]])
                else st)) := by
          simp [scanStep, hd']
        rw [hstep] at hq
        rcases ih path _ q hq with hin | ⟨t, htne, hqe, hnodot⟩
        · rcases hdr _ _ _ q hin with hin1 | ⟨t, htne, hqe, hnodot⟩
          · by_cases hc : hasGitDir sub = true ∧ (path ++ [name]) ∉ st.1
            · rw [if_pos hc] at hin1
              rcases List.mem_append.mp hin1 with hin2 | hqp
              · exact Or.inl hin2
              · refine Or.inr ⟨[name], by simp, List.mem_singleton.mp hqp, ?_⟩
                intro c hc2
                rw [List.mem_singleton.mp hc2]
                exact hd'
            · rw [if_neg hc] at hin1
              exact Or.inl hin1
          · refine Or.inr ⟨name :: t, by simp, ?_, ?_⟩
            · rw [hqe, List.append_assoc]
              rfl
            · intro c hc2
              rcases List.mem_cons.mp hc2 with hcn | hct
              · rw [hcn]; exact hd'
              · exact hnodot c hct
        · exact Or.inr ⟨t, htne, hqe, hnodot⟩

theorem search_directory_repos_sub :
    ∀ (n : Nat) (path : List String) (es : List (String × FsEntry)) (st : ScanState),
      ∀ q ∈ (search_directory n path es st).2,
        q ∈ st.2 ∨ ∃ t, t ≠ [] ∧ q = path ++ t ∧ ∀ c ∈ t, dotted c = false := by
  intro n
  induction n with
  | zero =>
    intro path es st q hq
    exact Or.inl hq
  | succ n ih =>
    intro path es st q hq
    exact scanStep_repos_sub (search_directory n)
      (fun ip sub st2 => ih ip sub st2) es path st q hq

theorem scanStep_repos_char (n : Nat)
    (dive : List String → List (String × FsEntry) → ScanState → ScanState)
    (hdf : ∀ ip sub st, ∀ q ∈ (dive ip sub st).1,
      q ∈ st.1 ∨ ∃ t, t ≠ [] ∧ q = ip ++ t)
    (hdr : ∀ ip sub st, wfDepth n sub = true → FoundAway ip sub st.1 →
      ∀ q, (q ∈ (dive ip sub st).2 ↔
        q ∈ st.2 ∨ ∃ s, q = ip ++ s ∧ repoSuffix s sub = true ∧ s.length ≤ n)) :
    ∀ (es : List (String × FsEntry)) (path : List String) (st : ScanState),
      wfDepth (n + 1) es = true → FoundAway path es st.1 →
      ∀ q, (q ∈ (scanStep dive path es st).2 ↔
        q ∈ st.2 ∨ ∃ s, q = path ++ s ∧ repoSuffix s es = true ∧ s.length ≤ n + 1) := by
  intro es
  induction es with
  | nil =>
    intro path st hwf hinv q
    simp [scanStep, repoSuffix_nil_entries]
  | cons p rest ih =>
    obtain ⟨name, e⟩ := p
    intro path st hwf hinv q
    obtain ⟨hnd, hsub, hrest⟩ := wfDepth_cons hwf
    have hinv_rest : FoundAway path rest st.1 :=
      fun p hp => hinv p (List.mem_cons_of_mem _ hp)
    by_cases hd : dotted name = true
    · have hstep : scanStep dive path ((name, e) :: rest) st =
          scanStep dive path rest st := by
        simp [scanStep, hd]
      rw [hstep, ih path st hrest hinv_rest q]
      simp only [repoSuffix_cons_skip hnd (Or.inl hd)]
    · have hd' : dotted name = false := by
        cases hdd : dotted name
        · rfl
        · exact absurd hdd hd
      cases e with
      | file =>
        have hstep : scanStep dive path ((name, FsEntry.file) :: rest) st =
            scanStep dive path rest st := by
          simp [scanStep, hd']
        rw [hstep, ih path st hrest hinv_rest q]
        simp only [repoSuffix_cons_skip hnd (Or.inr rfl)]
      | dir sub =>
        have hipnot : (path ++ [name]) ∉ st.1 := by
          intro hmem
          exact hinv (name, FsEntry.dir sub) (List.mem_cons_self _ _)
            (path ++ [name]) hmem ⟨[], by simp⟩
        have hstep : scanStep dive path ((name, FsEntry.dir sub) :: rest) st =
            scanStep dive path rest
              (dive (path ++ [name]) sub
                (if hasGitDir sub = true ∧ (path ++ [name]) ∉ st.1 then
                  ((path ++ [name]) :: st.1, st.2 ++ [path ++ [name]])
                else st)) := by
          simp [scanStep, hd']
        have hname_ne : ∀ p ∈ rest, (p : String × FsEntry).1 ≠ name :=
          fun p hp => key_ne_of_any_false hp hnd
        cases hg : hasGitDir sub with
        | true =>
          have hif : (if hasGitDir sub = true ∧ (path ++ [name]) ∉ st.1 then
                (((path ++ [name]) :: st.1 : List (List String)),
                  st.2 ++ [path ++ [name]])
              else st) =
              ((path ++ [name]) :: st.1, st.2 ++ [path ++ [name]]) :=
            if_pos ⟨hg, hipnot⟩
          rw [hstep, hif]
          have hfa_sub : FoundAway (path ++ [name]) sub
              (((path ++ [name]) :: st.1, st.2 ++ [path ++ [name]]) : ScanState).1 := by
            intro p hp q2 hq2 hu
            rcases List.mem_cons.mp hq2 with hqp | hq2m
            · rw [hqp] at hu
              exact not_under_snoc_self _ _ hu
            · exact hinv (name, FsEntry.dir sub) (List.mem_cons_self _ _) q2 hq2m
                (under_of_under_snoc hu)
          have hdr1 := hdr (path ++ [name]) sub
            (((path ++ [name]) :: st.1, st.2 ++ [path ++ [name]])) hsub hfa_sub
          have hfa_rest : FoundAway path rest
              (dive (path ++ [name]) sub
                (((path ++ [name]) :: st.1, st.2 ++ [path ++ [name]]))).1 := by
            intro p hp q2 hq2 hu
            rcases hdf _ _ _ q2 hq2 with hq2m | ⟨t, htne, hqe⟩
            · rcases List.mem_cons.mp hq2m with hqp | hq2m2
              · rw [hqp] at hu
                exact hname_ne p hp (under_snoc_cons hu)
              · exact hinv p (List.mem_cons_of_mem _ hp) q2 hq2m2 hu
            · rw [hqe, List.append_assoc] at hu
              exact hname_ne p hp (under_snoc_cons hu)
          rw [ih path _ hrest hfa_rest q, hdr1 q]
          constructor
          · rintro ((hin | ⟨s2, hq2, hs2, hl2⟩) | ⟨s, hq2, hs, hl⟩)
            · rcases List.mem_append.mp hin with hin2 | hqp
              · exact Or.inl hin2
              · refine Or.inr ⟨[name], List.mem_singleton.mp hqp, ?_,
                  by simp only [List.length_singleton]; omega⟩
                rw [repoSuffix_cons_dir hnd hd']
                exact Or.inl ⟨rfl, hg⟩
            · refine Or.inr ⟨name :: s2, ?_, ?_, by simp; omega⟩
              · rw [hq2, List.append_assoc]
                rfl
              · rw [repoSuffix_cons_dir hnd hd']
                exact Or.inr (Or.inl ⟨s2, rfl, repoSuffix_ne_nil hs2, hs2⟩)
            · refine Or.inr ⟨s, hq2, ?_, hl⟩
              rw [repoSuffix_cons_dir hnd hd']
              exact Or.inr (Or.inr hs)
          · rintro (hin | ⟨s, hq2, hs, hl⟩)
            · exact Or.inl (Or.inl (List.mem_append.mpr (Or.inl hin)))
            · rw [repoSuffix_cons_dir hnd hd'] at hs
              rcases hs with ⟨hs1, hsg⟩ | ⟨s2, hs2, hs2ne, hs2r⟩ | hsr
              · rw [hs1] at hq2
                exact Or.inl (Or.inl (List.mem_append.mpr (Or.inr
                  (List.mem_singleton.mpr hq2))))
              · refine Or.inl (Or.inr ⟨s2, ?_, hs2r, ?_⟩)
                · rw [hq2, hs2, List.append_assoc]
                  rfl
                · rw [hs2] at hl
                  simp at hl
                  omega
              · exact Or.inr ⟨s, hq2, hsr, hl⟩
        | false =>
          have hif : (if hasGitDir sub = true ∧ (path ++ [name]) ∉ st.1 then
                (((path ++ [name]) :: st.1 : List (List String)),
                  st.2 ++ [path ++ [name]])
              else st) = st := by
            rw [if_neg]
            intro hc
            rw [hg] at hc
            exact Bool.false_ne_true hc.1
          rw [hstep, hif]
          have hfa_sub : FoundAway (path ++ [name]) sub st.1 := by
            intro p hp q2 hq2 hu
            exact hinv (name, FsEntry.dir sub) (List.mem_cons_self _ _) q2 hq2
              (under_of_under_snoc hu)
          have hdr1 := hdr (path ++ [name]) sub st hsub hfa_sub
          have hfa_rest : FoundAway path rest
              (dive (path ++ [name]) sub st).1 := by
            intro p hp q2 hq2 hu
            rcases hdf _ _ _ q2 hq2 with hq2m | ⟨t, htne, hqe⟩
            · exact hinv p (List.mem_cons_of_mem _ hp) q2 hq2m hu
            · rw [hqe, List.append_assoc] at hu
              exact hname_ne p hp (under_snoc_cons hu)
          rw [ih path _ hrest hfa_rest q, hdr1 q]
          constructor
          · rintro ((hin | ⟨s2, hq2, hs2, hl2⟩) | ⟨s, hq2, hs, hl⟩)
            · exact Or.inl hin
            · refine Or.inr ⟨name :: s2, ?_, ?_, by simp; omega⟩
              · rw [hq2, List.append_assoc]
                rfl
              · rw [repoSuffix_cons_dir hnd hd']
                exact Or.inr (Or.inl ⟨s2, rfl, repoSuffix_ne_nil hs2, hs2⟩)
            · refine Or.inr ⟨s, hq2, ?_, hl⟩
              rw [repoSuffix_cons_dir hnd hd']
              exact Or.inr (Or.inr hs)
          · rintro (hin | ⟨s, hq2, hs, hl⟩)
            · exact Or.inl (Or.inl hin)
            · rw [repoSuffix_cons_dir hnd hd'] at hs
              rcases hs with ⟨hs1, hsg⟩ | ⟨s2, hs2, hs2ne, hs2r⟩ | hsr
              · rw [hsg] at hg
                exact absurd hg (by decide)
              · refine Or.inl (Or.inr ⟨s2, ?_, hs2r, ?_⟩)
                · rw [hq2, hs2, List.append_assoc]
                  rfl
                · rw [hs2] at hl
                  simp at hl
                  omega
              · exact Or.inr ⟨s, hq2, hsr, hl⟩

theorem search_directory_repos_char :
    ∀ (n : Nat) (path : List String) (es : List (String × FsEntry)) (st : ScanState),
      wfDepth n es = true → FoundAway path es st.1 →
      ∀ q, (q ∈ (search_directory n path es st).2 ↔
        q ∈ st.2 ∨ ∃ s, q = path ++ s ∧ repoSuffix s es = true ∧ s.length ≤ n) := by
  intro n
  induction n with
  | zero =>
    intro path es st hwf hinv q
    constructor
    · intro hq
      exact Or.inl hq
    · rintro (hq | ⟨s, hq, hs, hl⟩)
      · exact hq
      · rw [List.length_eq_zero.mp (Nat.le_zero.mp hl)] at hs
        simp [repoSuffix] at hs
  | succ n ih =>
    intro path es st hwf hinv q
    exact scanStep_repos_char n (search_directory n)
      (fun ip sub st2 => search_directory_found_sub n ip sub st2)
      (fun ip sub st2 => ih ip sub st2)
      es path st hwf hinv q

/-- C2 counterexample: the scan reports the repository root/a/b/c/d, which
lies four levels below the scanned root, so the scan does not stop at the
claimed depth bound of 3 (the guard `depth > 3`, entered with the root at
depth 0, admits four levels of children). -/
theorem scan_reports_beyond_depth_three :
    ["a", "b", "c", "d"] ∈ find_all_git_repositories deep_tree ∧
      ¬ (["a", "b", "c", "d"] : List String).length ≤ 3 := by
  refine ⟨?_, by decide⟩
  have hev : find_all_git_repositories deep_tree = [["a", "b", "c", "d"]] := by rfl
  rw [hev]
  exact List.mem_singleton.mpr rfl

/-- C2 (amended): on every fixture tree whose listings are duplicate-free down
to the scanned depth, the scan reports exactly the subdirectories that contain
a `.git` marker directory, are reached through non-dot-named directories, and
lie at depths 1 through 4 below the scanned root — and none deeper. -/
theorem find_all_git_repositories_char (root : FsEntry) (q : List String)
    (h : wfDepth 4 (entriesOf root) = true) :
    q ∈ find_all_git_repositories root ↔
      repoSuffix q (entriesOf root) = true ∧ 1 ≤ q.length ∧ q.length ≤ 4 := by
  have hchar := search_directory_repos_char 4 [] (entriesOf root) ([], []) h
    (fun p hp q2 hq2 => absurd hq2 (List.not_mem_nil q2)) q
  have hfind : (q ∈ find_all_git_repositories root) =
      (q ∈ (search_directory 4 [] (entriesOf root) ([], [])).2) := rfl
  rw [hfind, hchar]
  constructor
  · rintro (hq | ⟨s, hqs, hs, hl⟩)
    · exact absurd hq (List.not_mem_nil q)
    · rw [List.nil_append] at hqs
      subst hqs
      refine ⟨hs, ?_, hl⟩
      exact List.length_pos.mpr (repoSuffix_ne_nil hs)
  · rintro ⟨hs, h1, h4⟩
    exact Or.inr ⟨q, by simp, hs, h4⟩

/-- Witness for the amended C2 on a concrete fixture tree with repositories
at depths 1 and 2 and a dot-prefixed repository. -/
theorem find_all_git_repositories_char_case :
    wfDepth 4 (entriesOf sample_tree) = true ∧
      (["r1"] ∈ find_all_git_repositories sample_tree ↔
        repoSuffix ["r1"] (entriesOf sample_tree) = true ∧
          1 ≤ (["r1"] : List String).length ∧ (["r1"] : List String).length ≤ 4) :=
  ⟨by rfl, find_all_git_repositories_char sample_tree ["r1"] (by rfl)⟩

/-- C10: the scan never reports the scanned root itself (every reported path
is a nonempty path of components below the root), and every component of a
reported path is non-dot-prefixed, so a repository inside a dot-prefixed
directory, or itself dot-prefixed, is never reported. -/
theorem find_all_skips_root_and_dotted (root : FsEntry) (q : List String)
    (h : q ∈ find_all_git_repositories root) :
    q ≠ [] ∧ ∀ c ∈ q, dotted c = false := by
  rcases search_directory_repos_sub 4 [] (entriesOf root) ([], []) q h with
    hq | ⟨t, htne, hqe, hnd⟩
  · exact absurd hq (List.not_mem_nil q)
  · rw [List.nil_append] at hqe
    rw [hqe]
    exact ⟨htne, hnd⟩

/-- Witness for C10 on the fixture tree: the reported path ["r1"] is not the
root and has no dot-prefixed component. -/
theorem find_all_skips_root_and_dotted_case :
    (["r1"] : List String) ≠ [] ∧ ∀ c ∈ (["r1"] : List String), dotted c = false :=
  find_all_skips_root_and_dotted sample_tree ["r1"] (by decide)

/-- C6: whenever a git invocation errors or times out (raises), the branch
lookup returns the fallback label "Unknown": if the symbolic-ref command
raises the result is "Unknown" regardless of the second command, and if it
exits nonzero the result is "Unknown" whenever the fallback hash command
raises or also exits nonzero. -/
theorem get_branch_name_error_unknown (o2 : CmdOutcome) (rc : Int) (out : String)
    (h : rc ≠ 0) :
    get_branch_name CmdOutcome.raised o2 = "Unknown" ∧
    get_branch_name (CmdOutcome.completed rc out) CmdOutcome.raised = "Unknown" ∧
    (∀ rc2 out2, rc2 ≠ 0 →
      get_branch_name (CmdOutcome.completed rc out) (CmdOutcome.completed rc2 out2) =
        "Unknown") := by
  refine ⟨rfl, ?_, ?_⟩
  · simp [get_branch_name, h]
  · intro rc2 out2 h2
    simp [get_branch_name, h, h2]

/-- Witness for C6: a nonzero symbolic-ref exit followed by a raising fallback
command yields "Unknown". -/
theorem get_branch_name_error_unknown_case :
    get_branch_name (CmdOutcome.completed 1 "") CmdOutcome.raised = "Unknown" :=
  (get_branch_name_error_unknown CmdOutcome.raised 1 "" (by decide)).2.1
